import Mathlib

/-!
# A verification development for the pPEG engine (`pPEG.mjs`)

This file shallowly embeds the core of the pPEG JavaScript engine:
the parser virtual machine (`ID`, `ALT`, `SEQ`, `REP`, `PRE`, `SQ`, `DQ`,
`CHS`, `EXTN`), the grammar compiler (`compiler`, `emit`, `min_max`,
`optimize`, `first_char`, `escape_codes`) and the `<infix>` Pratt rewrite,
and proves properties of the embedded definitions.

Modelling conventions:
* the input string is a `List Char`; indexing `input[pos]` is `List.get?`
  (JavaScript yields `undefined` past the end, modelled by `none`);
* ptree values (both the grammar ptrees fed to the compiler and the parse
  trees built by the machine) are `JVal`: a JavaScript value that is either
  a string or an array, mirroring the `[name, string-or-array]` node shape;
* JavaScript numbers that can be `NaN` are `JSNum := Option Nat`
  (`none` is `NaN`); comparisons follow JavaScript (`NaN` compares false);
* a raised JavaScript error (grammar error, `ReferenceError`, missing
  extension) is `none` / `Except.error`; running out of fuel is also `none`,
  so every `= some _` hypothesis asserts genuine termination of the source
  loop with the stated result;
* `console.log` tracing calls are omitted (pure logging); the `env.trace`
  flag itself is modelled (as the truthiness of the JS value) because it
  gates the `ALT` guards;
* the extension table is the default empty one; of the builtins, `<?>` and
  `<same>` are modelled in `eval`, while the `<infix>` builtin is modelled
  separately as `infixFn` (it is an independent tree rewrite) and `eval`
  treats it like an unregistered extension.
-/

namespace PPEG

/-- A JavaScript value as used for ptree nodes: a string or an array. -/
inductive JVal where
  | str : String → JVal
  | arr : List JVal → JVal

mutual

/-- JavaScript `String(v)`: arrays stringify as their elements joined by
commas (recursively), strings as themselves. -/
def jsToString : JVal → String
  | .str s => s
  | .arr xs => String.intercalate "," (jsToStringL xs)

/-- Elementwise `String(v)` over a list of values. -/
def jsToStringL : List JVal → List String
  | [] => []
  | v :: rest => jsToString v :: jsToStringL rest

end

/-- JavaScript array indexing `v[i]` (for array values); `none` is
`undefined`. -/
def jidx : JVal → Nat → Option JVal
  | .str _, _ => none
  | .arr xs, i => xs.get? i

/-- JavaScript `v.length`: string length for strings, element count for
arrays. -/
def jvalLength : JVal → Nat
  | .str s => s.length
  | .arr xs => xs.length

/-- `String(v)` where `v` may be `undefined`. -/
def jsToStringU : Option JVal → String
  | none => "undefined"
  | some v => jsToString v

/-- A JavaScript number that may be `NaN` (`none`). All numbers reaching
the machine's bounds are non-negative integers or `NaN`. -/
abbrev JSNum := Option Nat

/-- JS `a === b` for a plain count `a` and a possibly-`NaN` bound `b`. -/
def jsEqN (a : Nat) (b : JSNum) : Bool :=
  match b with
  | some m => a == m
  | none => false

/-- JS `a < b` for a plain count and a possibly-`NaN` bound. -/
def jsLtN (a : Nat) (b : JSNum) : Bool :=
  match b with
  | some m => a < m
  | none => false

/-- JS `a >= b` for a plain count and a possibly-`NaN` bound. -/
def jsGeN (a : Nat) (b : JSNum) : Bool :=
  match b with
  | some m => m ≤ a
  | none => false

/-- Decimal value of a digit string. -/
def digitsToNat : List Char → Nat → Nat
  | [], acc => acc
  | c :: rest, acc => digitsToNat rest (acc * 10 + (c.toNat - 48))

/-- Leading-digits part of JavaScript `parseInt(s, 10)` after skipping
leading whitespace; `none` is `NaN`. (The inputs that occur are digit
strings or strings starting with a letter; sign handling never arises.) -/
def jsParseInt (s : String) : Option Nat :=
  let t := s.data.dropWhile (fun c => c = ' ' ∨ c = '\t' ∨ c = '\n' ∨ c = '\r')
  let ds := t.takeWhile Char.isDigit
  if ds.isEmpty then none
  else some (digitsToNat ds 0)

/-- An `ALT` guard entry as computed by `first_char`: the JS values
`null` (no guard), `undefined` (empty literal) or a character. -/
inductive GuardVal where
  | null : GuardVal
  | undef : GuardVal
  | ch : Char → GuardVal

/-- Machine instructions, mirroring `[Op, args...]` tuples of the source.
`ALT` carries its guard list only after `optimize` has attached one
(`exp.length > 2` in the source). `SEQ`/`REP`/`CHS` bounds are `JSNum`
because `min_max` can produce `NaN`. -/
inductive Exp where
  | ID (idx : Nat) (name : String)
  | ALT (children : List Exp) (guards : Option (List GuardVal))
  | SEQ (min max : JSNum) (children : List Exp)
  | REP (min max : JSNum) (child : Exp)
  | PRE (sign : String) (child : Exp)
  | SQ (icase : Bool) (str : List Char)
  | DQ (icase : Bool) (str : List Char)
  | CHS (neg : Bool) (min max : JSNum) (str : List Char)
  | EXTN (txt : String)

/-- The mutable parse environment (`env` in `parse`). `depth` and the fault
position are JS numbers that start at `-1`, hence `Int`. -/
structure Env where
  code : List Exp
  space : Option Exp
  input : List Char
  pos : Nat
  peak : Nat
  depth : Int
  max_depth : Int
  rule_names : List String
  tree : List JVal
  start : List Nat
  stack : List Nat
  fault_pos : Int
  fault_rule : Option String
  fault_exp : Option Exp
  trace : Bool
  trace_depth : Int

/-- JS array index assignment `l[i] = v`; in this machine writes only occur
at `i ≤ l.length` (the depth-indexed stacks grow one slot at a time). -/
def listSet {α : Type} (l : List α) (i : Nat) (v : α) : List α :=
  if i < l.length then l.set i v else l ++ [v]

/-- The default whitespace skip of `DQ` (no `_space_` rule): advance over
`' '`, `'\n'`, `'\r'`, `'\t'`; recursion over the input remainder. -/
def skipDefaultAux : List Char → Nat → Nat
  | [], pos => pos
  | c :: rest, pos =>
    if c = ' ' ∨ c = '\n' ∨ c = '\r' ∨ c = '\t' then skipDefaultAux rest (pos + 1)
    else pos

/-- Default whitespace skip starting at `pos` in `input`. -/
def skipDefault (input : List Char) (pos : Nat) : Nat :=
  skipDefaultAux (input.drop pos) pos

/-- The character-class membership scan of `CHS`: ranges are three-character
windows `a-b` (the middle is `'-'` and a third character exists), other
characters are singletons. -/
def chsHit (ch : Char) : List Char → Bool
  | a :: '-' :: b :: rest => if ch < a ∨ b < ch then chsHit ch rest else true
  | a :: rest => if ch = a then true else chsHit ch rest
  | [] => false

/-- The `min..max` consumption loop of `CHS` over the remaining input,
returning the final `(pos, count)`. -/
def chsLoop (neg : Bool) (max : JSNum) (str : List Char) :
    List Char → Nat → Nat → Nat × Nat
  | [], pos, count => (pos, count)
  | c :: rest, pos, count =>
    let hit := chsHit c str
    let hit := if neg then !hit else hit
    if !hit then (pos, count)
    else
      let count := count + 1
      let pos := pos + 1
      if jsEqN count max then (pos, count)
      else chsLoop neg max str rest pos count

/-- `let char = input[pos]; if (icase && pos < input.length) char =
char.toUpperCase();` — upper-case the current input character when
matching case-insensitively (`Char.toUpper`, ASCII like the source's
usage). -/
def icaseChar (icase : Bool) (c : Option Char) : Option Char :=
  if icase then c.map Char.toUpper else c

/-- The character loop of `SQ`: match the literal characters one by one
(upper-casing the input character when `icase`); `none` is a mismatch
(`return false` with the cursor untouched), `some pos` the final cursor. -/
def sqLoop (icase : Bool) (input : List Char) : List Char → Nat → Option Nat
  | [], pos => some pos
  | c :: rest, pos =>
    let char := icaseChar icase (input.get? pos)
    if char = some c then sqLoop icase input rest (pos + 1) else none

/-- First character of a string as an `Option`. -/
def headChar (s : String) : Option Char := s.data.head?

/-- The source's `name[0] === '_'` test. -/
def headUnderscore (name : String) : Bool := headChar name == some '_'

/-- The source's `name[0] <= "Z"` test (capital-letter rule names);
`undefined <= "Z"` is false in JS, matching the `none` case. -/
def headLEZ (name : String) : Bool :=
  match headChar name with
  | some c => decide (c ≤ 'Z')
  | none => false

/-- `input.slice(start, stop)`. -/
def sliceStr (input : List Char) (start stop : Nat) : String :=
  String.mk ((input.drop start).take (stop - start))

/-- The extension key: `exp[1].slice(1,-1).split(' ')[0]`. -/
def extnKey (txt : String) : String :=
  (((String.mk ((txt.data.drop 1).dropLast)).splitOn " ").head?).getD ""

/-- The source's recurring restoration step `if (env.tree.length > stack)
env.tree = env.tree.slice(0, stack);` (used by `ID`, `ALT`, `REP` and
`PRE`). -/
def truncTo (stack : Nat) (env : Env) : Env :=
  if stack < env.tree.length then { env with tree := env.tree.take stack } else env

mutual

/-- The instruction dispatcher: one JS instruction call `exp[0](exp, env)`.
`none` is a raised error (recursion bound, ill-formed program, missing
extension) or fuel exhaustion; `some (result, env')` is the boolean result
with the mutated environment. Fuel decreases on every nested call, so a
`some` result certifies termination of the source loops. -/
def eval : Nat → Exp → Env → Option (Bool × Env)
  | 0, _, _ => none
  | Nat.succ f, e, env =>
    match e with
    | .ID idx name =>
      -- function ID: record entry, check the recursion bound, run the body,
      -- then shape the ptree per the underscore/leaf/branch/elision rules
      let start := env.pos
      let stack := env.tree.length
      if env.max_depth < env.depth then none
      else
        let d := env.depth + 1
        let env := { env with
                     depth := d
                     rule_names := listSet env.rule_names d.toNat name
                     start := listSet env.start d.toNat start
                     stack := listSet env.stack d.toNat stack }
        match env.code.get? idx with
        | none => none
        | some expr =>
          match eval f expr env with
          | none => none
          | some (result, env1) =>
            let env1 := { env1 with depth := env1.depth - 1 }
            if result = false then some (false, env1)
            else if headUnderscore name then
              some (true, truncTo stack env1)
            else if env1.tree.length = stack then
              let node := JVal.arr [.str name, .str (sliceStr env1.input start env1.pos)]
              some (true, { env1 with tree := env1.tree ++ [node] })
            else if 1 < env1.tree.length - stack ∨ headLEZ name then
              let node := JVal.arr [.str name, .arr (env1.tree.drop stack)]
              some (true, { env1 with tree := env1.tree.take stack ++ [node] })
            else some (true, env1)
    | .ALT children guards =>
      altLoop f children guards 0 (env.input.get? env.pos) env.pos env.tree.length env
    | .SEQ min max args => seqLoop f min max args 0 env
    | .REP min max child =>
      let stack := env.tree.length
      match repLoop f child max 0 env.pos env with
      | none => none
      | some (count, env1) =>
        if jsLtN count min then some (false, truncTo stack env1)
        else some (true, env1)
    | .PRE sign term =>
      -- function PRE: run the child with trace suppressed, restore peak,
      -- trace, tree and cursor, then apply the sign logic
      let start := env.pos
      let stack := env.tree.length
      let trace := env.trace
      let peak := env.peak
      match eval f term { env with trace := false } with
      | none => none
      | some (result, env1) =>
        let env1 := { env1 with peak := peak, trace := trace }
        let env1 := truncTo stack env1
        let env1 := { env1 with pos := start }
        if sign = "~" then
          if result = true ∨ env1.input.length ≤ env1.pos then some (false, env1)
          else
            let env1 := { env1 with pos := env1.pos + 1 }
            let env1 :=
              if env1.peak < env1.pos then { env1 with peak := env1.pos } else env1
            some (true, env1)
        else if sign = "!" then some (!result, env1)
        else some (result, env1)
    | .SQ icase str =>
      if str = [] then some (true, env)
      else
        match sqLoop icase env.input str env.pos with
        | none => some (false, env)     -- env.pos = start: the cursor never moved
        | some pos =>
          let env := { env with pos := pos }
          let env := if env.peak < pos then { env with peak := pos } else env
          some (true, env)
    | .DQ icase str =>
      if str = [] then some (true, env)
      else
        match dqLoop f icase str env.pos env with
        | none => none
        | some (none, env1) => some (false, env1)   -- fail; cursor not restored
        | some (some pos, env1) =>
          let env1 := { env1 with pos := pos }
          let env1 := if env1.peak < pos then { env1 with peak := pos } else env1
          some (true, env1)
    | .CHS neg min max str =>
      let r := chsLoop neg max str (env.input.drop env.pos) env.pos 0
      if jsLtN r.2 min then some (false, env)
      else
        let env := { env with pos := r.1 }
        let env := if env.peak < r.1 then { env with peak := r.1 } else env
        some (true, env)
    | .EXTN txt =>
      -- function EXTN with the default (empty) user table; builtins `<?>`
      -- (trace_trigger) and `<same>` (a diagnostic log that returns true)
      -- are modelled here; the `<infix>` builtin is modelled separately as
      -- `infixFn`, so here it behaves like a missing extension (`none`)
      let key := extnKey txt
      if key = "?" then
        if env.trace then some (true, env)
        else some (true, { env with trace := true, trace_depth := env.depth })
      else if key = "same" then some (true, env)
      else none
termination_by structural fuel _ _ => fuel

/-- The alternative loop of `ALT`. A guard entry (when a guard list is
attached and tracing is off) skips the alternative when the current input
codepoint differs from it; after a failing alternative the tree is
truncated to the entry mark and the cursor restored before the next try. -/
def altLoop : Nat → List Exp → Option (List GuardVal) → Nat → Option Char →
    Nat → Nat → Env → Option (Bool × Env)
  | 0, _, _, _, _, _, _, _ => none
  | Nat.succ _, [], _, _, _, _, _, env => some (false, env)
  | Nat.succ f, arg :: rest, guards, i, ch, start, stack, env =>
    let skip :=
      !env.trace &&
      (match guards with
       | some gs =>
         match gs.get? i with
         | some .null => false
         | some .undef => ch.isSome        -- `ch !== undefined`
         | some (.ch x) => !(ch == some x) -- `ch !== x`
         | none => false
       | none => false)
    if skip then altLoop f rest guards (i + 1) ch start stack env
    else
      match eval f arg env with
      | none => none
      | some (true, env1) => some (true, env1)
      | some (false, env1) =>
        let env1 := truncTo stack env1
        altLoop f rest guards (i + 1) ch start stack { env1 with pos := start }
termination_by structural fuel _ _ _ _ _ _ _ => fuel

/-- One pass over the children of `SEQ` (the inner `for` loop). On a child
failure the fault trackers are updated when the cursor advanced past the
iteration start and the recorded fault, and `(false, env)` is returned;
`(true, env)` means every child matched. -/
def seqInner : Nat → List Exp → Nat → Env → Option (Bool × Env)
  | 0, _, _, _ => none
  | Nat.succ _, [], _, env => some (true, env)
  | Nat.succ f, arg :: rest, istart, env =>
    match eval f arg env with
    | none => none
    | some (false, env1) =>
      let env1 :=
        if istart < env1.pos ∧ env1.fault_pos < (env1.pos : Int) then
          { env1 with
            fault_pos := (env1.pos : Int)
            fault_rule :=
              if env1.depth < 0 then none
              else env1.rule_names.get? env1.depth.toNat
            fault_exp := some arg }
        else env1
      some (false, env1)
    | some (true, env1) => seqInner f rest istart env1
termination_by structural fuel _ _ _ => fuel

/-- The outer `min..max` loop of `SEQ`: stop on a child failure (result is
`count >= min`), on reaching `max` (`max = 0` means unbounded) or on a pass
that consumed nothing. -/
def seqLoop : Nat → JSNum → JSNum → List Exp → Nat → Env → Option (Bool × Env)
  | 0, _, _, _, _, _ => none
  | Nat.succ f, min, max, args, count, env =>
    let istart := env.pos
    match seqInner f args istart env with
    | none => none
    | some (false, env1) => some (jsGeN count min, env1)
    | some (true, env1) =>
      let count := count + 1
      if jsEqN count max then some (jsGeN count min, env1)
      else if env1.pos = istart then some (jsGeN count min, env1)
      else seqLoop f min max args count env1
termination_by structural fuel _ _ _ _ _ => fuel

/-- The `min..max` loop of `REP`: stop on child failure, no progress, or
reaching `max`; returns the iteration count with the environment. -/
def repLoop : Nat → Exp → JSNum → Nat → Nat → Env → Option (Nat × Env)
  | 0, _, _, _, _, _ => none
  | Nat.succ f, child, max, count, pos, env =>
    match eval f child env with
    | none => none
    | some (false, env1) => some (count, env1)
    | some (true, env1) =>
      let count := count + 1
      if pos = env1.pos then some (count, env1)
      else if jsEqN count max then some (count, env1)
      else repLoop f child max count env1.pos env1
termination_by structural fuel _ _ _ _ _ => fuel

/-- The character loop of `DQ`. A space in the literal runs the `_space_`
instruction when one is installed (syncing `env.pos` before and after, and
ignoring its result) or the default whitespace skip (tracked only in the
local cursor). `some (none, env)` is a literal mismatch — `return false`
with the environment exactly as the space calls left it; `some (some pos,
env)` is a complete match with the final local cursor. -/
def dqLoop : Nat → Bool → List Char → Nat → Env → Option (Option Nat × Env)
  | 0, _, _, _, _ => none
  | Nat.succ _, _, [], pos, env => some (some pos, env)
  | Nat.succ f, icase, c :: rest, pos, env =>
    if c = ' ' then
      match env.space with
      | some sp =>
        match eval f sp { env with pos := pos } with
        | none => none
        | some (_, env1) => dqLoop f icase rest env1.pos env1
      | none => dqLoop f icase rest (skipDefault env.input pos) env
    else
      let char := icaseChar icase (env.input.get? pos)
      if char = some c then dqLoop f icase rest (pos + 1) env
      else some (none, env)
termination_by structural fuel _ _ _ _ => fuel

end

/-- The environment installed by `parse` (default options, empty extension
table) for a compiled program's instruction vector and `_space_` pointer. -/
def mkEnv (code : List Exp) (space : Option Exp) (input : List Char) : Env :=
  { code := code, space := space, input := input
    pos := 0, peak := 0, depth := -1, max_depth := 100
    rule_names := [], tree := [], start := [], stack := []
    fault_pos := -1, fault_rule := none, fault_exp := none
    trace := false, trace_depth := -1 }

/-! ## Escape decoding -/

/-- Value of one hexadecimal digit. -/
def hexVal (c : Char) : Option Nat :=
  if '0' ≤ c ∧ c ≤ '9' then some (c.toNat - '0'.toNat)
  else if 'a' ≤ c ∧ c ≤ 'f' then some (c.toNat - 'a'.toNat + 10)
  else if 'A' ≤ c ∧ c ≤ 'F' then some (c.toNat - 'A'.toNat + 10)
  else none

/-- Accumulate leading hexadecimal digits (the prefix-parsing part of
`parseInt(s, 16)`). -/
def hexAcc : List Char → Nat → Nat
  | [], acc => acc
  | c :: rest, acc =>
    match hexVal c with
    | some v => hexAcc rest (acc * 16 + v)
    | none => acc

/-- `parseInt(s, 16)` on the four characters after `\u`; `none` is `NaN`
(no leading hex digit). -/
def jsParseHex (cs : List Char) : Option Nat :=
  match cs with
  | [] => none
  | c :: _ =>
    match hexVal c with
    | some _ => some (hexAcc cs 0)
    | none => none

/-- `String.fromCharCode(n)`: `NaN` yields code 0; codes are taken mod
2^16. (Lean `Char` cannot hold lone surrogates; `Char.ofNat` maps those to
code 0, which never arises in the grammars considered.) -/
def fromCharCode (n : Option Nat) : Char :=
  match n with
  | none => Char.ofNat 0
  | some v => Char.ofNat (v % 65536)

/-- `escape_codes`: decode `\t`, `\n`, `\r`, `\\` and `\uHHHH` (the four
characters after `u` must all exist); any other backslash is kept literally
and the following character is processed normally. -/
def escape_codes : List Char → List Char
  | [] => []
  | '\\' :: 't' :: r => '\t' :: escape_codes r
  | '\\' :: 'n' :: r => '\n' :: escape_codes r
  | '\\' :: 'r' :: r => '\r' :: escape_codes r
  | '\\' :: '\\' :: r => '\\' :: escape_codes r
  | '\\' :: 'u' :: h1 :: h2 :: h3 :: h4 :: r =>
    fromCharCode (jsParseHex [h1, h2, h3, h4]) :: escape_codes r
  | '\\' :: rest => '\\' :: escape_codes rest
  | c :: rest => c :: escape_codes rest

/-! ## Compiler: `emit`, `min_max`, `optimize`, `first_char`, `compiler` -/

/-- `sq_dq`: strip the quotes, detect a trailing `i`, decode escapes and
upper-case the literal when case-insensitive. `fx` is `Exp.SQ` or
`Exp.DQ`. Upper-casing is `Char.toUpper` (ASCII, like
`String.prototype.toUpperCase` on the literals that occur). -/
def sq_dq (fx : Bool → List Char → Exp) (txt : String) : Exp :=
  let data := txt.data
  let icase := data.getLast? == some 'i'
  let inner := if icase then ((data.drop 1).dropLast).dropLast else (data.drop 1).dropLast
  let str := escape_codes inner
  let str := if icase then str.map Char.toUpper else str
  fx icase str

/-- `min_max`: decode a repeat suffix node `[suffix, sfx]` into `(min,
max)` bounds. In the two-child `range` case (`*N..`) the source computes
`parseInt(sfx, 10)` on the whole child array, which stringifies as
`"num,N,dots,.."` and parses as `NaN`. (An out-of-range `sfx[i][1]` read,
which cannot arise from grammar-produced ptrees, is modelled as
`parseInt("undefined")` = `NaN`.) -/
def min_max (suffix : String) (sfx : JVal) : Except String (JSNum × JSNum) :=
  if suffix = "sfx" then
    .ok (match sfx with
         | .str "+" => (some 1, some 0)
         | .str "?" => (some 0, some 1)
         | _ => (some 0, some 0))
  else if suffix = "num" then
    let n := jsParseInt (jsToString sfx)
    .ok (n, n)
  else if suffix = "range" then
    if jvalLength sfx = 2 then
      .ok (jsParseInt (jsToString sfx), some 0)
    else
      .ok (jsParseInt (jsToStringU (jidx sfx 0 >>= fun v => jidx v 1)),
           jsParseInt (jsToStringU (jidx sfx 2 >>= fun v => jidx v 1)))
  else .error ("unknown suffix: " ++ suffix)

/-- Rule name from a `["rule", [["id", name], exp]]` node (`rules[i][1][0][1]`). -/
def ruleName (rule : JVal) : Option String :=
  match jidx rule 1 >>= fun v => jidx v 0 >>= fun w => jidx w 1 with
  | some (.str s) => some s
  | _ => none

/-- Rule body from a `["rule", [["id", name], exp]]` node (`rules[i][1][1]`). -/
def ruleBody (rule : JVal) : Option JVal :=
  jidx rule 1 >>= fun v => jidx v 1

/-- The `names` loop of `compiler`: successive `names[name] = i`
assignments, kept in order; no duplicate check is performed. -/
def buildNames : List JVal → Nat → Except String (List (String × Nat))
  | [], _ => .ok []
  | r :: rest, i =>
    match ruleName r with
    | none => .error "malformed rule ptree"
    | some n =>
      match buildNames rest (i + 1) with
      | .error e => .error e
      | .ok ns => .ok ((n, i) :: ns)

/-- JS object lookup over the assignment list: the LAST assignment to a
key wins. -/
def lookupName : List (String × Nat) → String → Option Nat
  | [], _ => none
  | (k, v) :: rest, key =>
    match lookupName rest key with
    | some r => some r
    | none => if k = key then some v else none

mutual

/-- `emit`: translate a grammar-ptree expression node into an instruction.
Grammar-ptree shapes the source would crash on are `.error`. -/
def emit : Nat → List (String × Nat) → JVal → Except String Exp
  | 0, _, _ => .error "fuel"
  | Nat.succ f, names, exp =>
    match exp with
    | .arr [.str "id", .str name] =>
      match lookupName names name with
      | none => .error ("Undefined rule: " ++ name)
      | some index => .ok (.ID index name)
    | .arr [.str "alt", .arr xs] =>
      match emitL f names xs with
      | .error e => .error e
      | .ok es => .ok (.ALT es none)
    | .arr [.str "seq", .arr xs] =>
      match emitL f names xs with
      | .error e => .error e
      | .ok es => .ok (.SEQ (some 1) (some 1) es)
    | .arr [.str "rep", .arr [expn, .arr [.str suffix, sfxv]]] =>
      match min_max suffix sfxv with
      | .error e => .error e
      | .ok (mn, mx) =>
        match emit f names expn with
        | .error e => .error e
        | .ok expr =>
          match expr with
          | .SEQ (some 1) (some 1) ex => .ok (.SEQ mn mx ex)
          | .CHS neg (some 1) (some 1) str => .ok (.CHS neg mn mx str)
          | .SQ _ str =>
            if str.length = 1 then .ok (.CHS false mn mx str)
            else .ok (.REP mn mx expr)
          | _ => .ok (.REP mn mx expr)
    | .arr [.str "pre", .arr [.arr [_, .str pfx], term]] =>
      match emit f names term with
      | .error e => .error e
      | .ok expr =>
        if pfx = "~" then
          match expr with
          | .SQ false str => .ok (.CHS true (some 1) (some 1) str)
          | .CHS false mn mx str => .ok (.CHS true mn mx str)
          | _ => .ok (.PRE pfx expr)
        else .ok (.PRE pfx expr)
    | .arr [.str "sq", .str txt] => .ok (sq_dq Exp.SQ txt)
    | .arr [.str "dq", .str txt] => .ok (sq_dq Exp.DQ txt)
    | .arr [.str "chs", .str txt] =>
      let str := escape_codes ((txt.data.drop 1).dropLast)
      .ok (.CHS false (some 1) (some 1) str)
    | .arr [.str "extn", .str txt] => .ok (.EXTN txt)
    | _ => .error "Undefined ptree node"

/-- Elementwise `emit` over child nodes. -/
def emitL : Nat → List (String × Nat) → List JVal → Except String (List Exp)
  | 0, _, _ => .error "fuel"
  | Nat.succ _, _, [] => .ok []
  | Nat.succ f, names, x :: rest =>
    match emit f names x with
    | .error e => .error e
    | .ok e =>
      match emitL f names rest with
      | .error err => .error err
      | .ok es => .ok (e :: es)

end

/-- `first_char`: the guard for one alternative — descend through `ID`
(into the referenced rule's code), `SEQ` (first child); a literal yields
its first character (`undef` for an empty literal), a `DQ` leading space
yields no guard, everything else no guard. Fuel exhaustion (`.error`)
corresponds to the unbounded recursion a left-recursive rule would cause. -/
def first_char : Nat → List Exp → Exp → Except String GuardVal
  | 0, _, _ => .error "fuel"
  | Nat.succ f, code, e =>
    match e with
    | .ID idx _ =>
      match code.get? idx with
      | some e2 => first_char f code e2
      | none => .error "undefined rule code"
    | .SEQ _ _ args =>
      match args.head? with
      | some a => first_char f code a
      | none => .error "empty SEQ"
    | .SQ _ str =>
      .ok (match str.head? with | some c => .ch c | none => .undef)
    | .DQ _ str =>
      match str.head? with
      | some c => .ok (if c = ' ' then .null else .ch c)
      | none => .ok .undef
    | _ => .ok .null

/-- `first_char` over each alternative of an `ALT`. -/
def firstCharL (f : Nat) (code : List Exp) : List Exp → Except String (List GuardVal)
  | [] => .ok []
  | a :: rest =>
    match first_char f code a with
    | .error e => .error e
    | .ok g =>
      match firstCharL f code rest with
      | .error e => .error e
      | .ok gs => .ok (g :: gs)

mutual

/-- `optimize`: recurse through `SEQ` children; attach a guard list to each
`ALT` (its children are not themselves optimized, as in the source). Guard
computation consults the pre-optimization code vector; this equals the
source's in-place pass because `first_char` never inspects guard lists. -/
def optimizeE : Nat → List Exp → Exp → Except String Exp
  | 0, _, _ => .error "fuel"
  | Nat.succ f, code, e =>
    match e with
    | .SEQ mn mx args =>
      match optimizeL f code args with
      | .error err => .error err
      | .ok args2 => .ok (.SEQ mn mx args2)
    | .ALT children _ =>
      match firstCharL f code children with
      | .error err => .error err
      | .ok guards => .ok (.ALT children (some guards))
    | _ => .ok e

/-- Elementwise `optimize` over `SEQ` children. -/
def optimizeL : Nat → List Exp → List Exp → Except String (List Exp)
  | 0, _, _ => .error "fuel"
  | Nat.succ _, _, [] => .ok []
  | Nat.succ f, code, a :: rest =>
    match optimizeE f code a with
    | .error e => .error e
    | .ok a2 =>
      match optimizeL f code rest with
      | .error e => .error e
      | .ok rest2 => .ok (a2 :: rest2)

end

/-- A compiled grammar program `{rules, names, code, start, space}`. -/
structure Codex where
  rules : List JVal
  names : List (String × Nat)
  code : List Exp
  start : Exp
  space : Option Exp

/-- `emit` applied to every rule body. -/
def emitRules (f : Nat) (names : List (String × Nat)) :
    List JVal → Except String (List Exp)
  | [] => .ok []
  | r :: rest =>
    match ruleBody r with
    | none => .error "malformed rule ptree"
    | some b =>
      match emit f names b with
      | .error e => .error e
      | .ok e =>
        match emitRules f names rest with
        | .error err => .error err
        | .ok es => .ok (e :: es)

/-- `optimize` applied to every rule's code. -/
def optimizeCode (f : Nat) (code : List Exp) :
    List Exp → Except String (List Exp)
  | [] => .ok []
  | e :: rest =>
    match optimizeE f code e with
    | .error err => .error err
    | .ok e2 =>
      match optimizeCode f code rest with
      | .error err => .error err
      | .ok rest2 => .ok (e2 :: rest2)

/-- The `space` assignment of `compiler`: `let space, sp =
names["_space_"]; if (sp) space = code[sp];` — the index 0 is falsy, so a
`_space_` rule that is the first rule leaves `space` unset. -/
def spaceOf (names : List (String × Nat)) (code : List Exp) : Option Exp :=
  match lookupName names "_space_" with
  | some (Nat.succ n) => code.get? (Nat.succ n)
  | _ => none

/-- `compiler`: ptree rules to a grammar program. -/
def compiler (fuel : Nat) (rules : List JVal) : Except String Codex :=
  match buildNames rules 0 with
  | .error e => .error e
  | .ok names =>
    let first := (names.head?.map Prod.fst).getD ""
    match emitRules fuel names rules with
    | .error e => .error e
    | .ok code =>
      match optimizeCode fuel code code with
      | .error e => .error e
      | .ok code2 =>
        .ok ⟨rules, names, code2, .ID 0 first, spaceOf names code2⟩

/-- The same `ALT` program with every attached guard list removed: plain
ordered choice trying every alternative, the reference semantics the
guards are measured against. -/
def stripGuards : Nat → Exp → Exp
  | 0, e => e
  | Nat.succ f, e =>
    match e with
    | .ALT children _ => .ALT (children.map (stripGuards f)) none
    | .SEQ mn mx args => .SEQ mn mx (args.map (stripGuards f))
    | .REP mn mx c => .REP mn mx (stripGuards f c)
    | .PRE s c => .PRE s (stripGuards f c)
    | e => e

/-! ## The `<infix>` builtin -/

/-- The `BIND_POWER` table: the source's 20 literal entries, written as
the evident formula — `_d__` has power `2d+1`, `__d_` has power `2d+2`,
for a digit `d`; every other key misses the table. -/
def BIND_POWER (s : String) : Option Nat :=
  match s.data with
  | ['_', d, '_', '_'] => if d.isDigit then some (2 * (d.toNat - 48) + 1) else none
  | ['_', '_', d, '_'] => if d.isDigit then some (2 * (d.toNat - 48) + 2) else none
  | _ => none

/-- `s.slice(-4)`: the last four characters (the whole string when
shorter). -/
def sliceLast4 (s : String) : String :=
  String.mk (s.data.drop (s.data.length - 4))

/-- `BIND_POWER[op[0].slice(-4)] || 0` for a stack item: ptree nodes carry
a string head; any other shape coerces to a key that misses the table. -/
def bindPowerOf (op : JVal) : Int :=
  match op with
  | .arr (.str s :: _) => ((BIND_POWER (sliceLast4 s)).map Int.ofNat).getD 0
  | _ => 0

mutual

/-- `pratt(lbp)` at the point of reading its first operand
`env.tree[next+=1]` (index `i`). Returns the built node and the final
`next`. A read past the stack (which would embed `undefined` in the JS
node) is an error; it cannot arise for `operand (op operand)*` shapes. -/
def prattGo : Nat → List JVal → Int → Nat → Except String (JVal × Nat)
  | 0, _, _, _ => .error "fuel"
  | Nat.succ f, tree, lbp, i =>
    match tree.get? i with
    | none => .error "undefined operand"
    | some result => prattLoop f tree lbp i result

/-- The `while (true)` loop of `pratt`: peek the operator after `next`;
stop when its power is below `lbp`; otherwise derive the recursion power —
`rbp = rbp%2===0 ? rpb-1 : rbp+1` — where the even branch reads the
undefined name `rpb` and raises a `ReferenceError`. -/
def prattLoop : Nat → List JVal → Int → Nat → JVal → Except String (JVal × Nat)
  | 0, _, _, _, _ => .error "fuel"
  | Nat.succ f, tree, lbp, next, result =>
    let op := tree.get? (next + 1)
    let rbp : Int := match op with | none => -1 | some o => bindPowerOf o
    if rbp < lbp then .ok (result, next)
    else if rbp % 2 = 0 then .error "ReferenceError: rpb is not defined"
    else
      match op with
      | none => .error "undefined op"
      | some o =>
        match jidx o 1 with
        | none => .error "undefined op payload"
        | some payload =>
          match prattGo f tree (rbp + 1) (next + 2) with
          | .error e => .error e
          | .ok (sub, next2) =>
            prattLoop f tree lbp next2 (JVal.arr [payload, .arr [result, sub]])

end

/-- The `<infix>` builtin: rewrite the ptree stack items from the
enclosing rule's entry mark (`env.stack[env.depth]`) into a single
precedence tree; fewer than three items are left untouched. -/
def infixFn (fuel : Nat) (tree : List JVal) (stack : Nat) : Except String (List JVal) :=
  if tree.length - stack < 3 then .ok tree
  else
    match prattGo fuel tree 0 stack with
    | .error e => .error e
    | .ok (r, _) => .ok (tree.take stack ++ [r])

/-! ## Concrete programs and environments used in the theorems -/

/-- Compiled code of the grammar `s = a 'x'` / `a = 'a'`. -/
def codeC1 : List Exp :=
  [.SEQ (some 1) (some 1) [.ID 1 "a", .SQ false ['x']], .SQ false ['a']]

/-- Grammar ptree of `s = 'a'i / 'b'`. -/
def rulesC2 : List JVal :=
  [.arr [.str "rule", .arr [.arr [.str "id", .str "s"],
     .arr [.str "alt", .arr [.arr [.str "sq", .str "'a'i"],
                             .arr [.str "sq", .str "'b'"]]]]]]

/-- The compiled (guard-annotated) code of `rulesC2`. -/
def codeC2 : List Exp :=
  [.ALT [.SQ true ['A'], .SQ false ['b']] (some [.ch 'A', .ch 'b'])]

/-- The two-child `range` suffix content of `*2..`. -/
def sfxRangeOpen : JVal :=
  .arr [.arr [.str "num", .str "2"], .arr [.str "dots", .str ".."]]

/-- Rule children `1 + 2` with a right-associative operator `op__0_`. -/
def treeC4 : List JVal :=
  [.arr [.str "val", .str "1"], .arr [.str "op__0_", .str "+"],
   .arr [.str "val", .str "2"]]

/-- Rule children `1 + 2 * 3` with left-associative operators. -/
def treeC4b : List JVal :=
  [.arr [.str "val", .str "1"], .arr [.str "op_1__", .str "+"],
   .arr [.str "val", .str "2"], .arr [.str "op_2__", .str "*"],
   .arr [.str "val", .str "3"]]

/-- Rule ptree `r = 'a'`. -/
def ruleDupA : JVal :=
  .arr [.str "rule", .arr [.arr [.str "id", .str "r"], .arr [.str "sq", .str "'a'"]]]

/-- Rule ptree `r = 'b'` (same rule name again). -/
def ruleDupB : JVal :=
  .arr [.str "rule", .arr [.arr [.str "id", .str "r"], .arr [.str "sq", .str "'b'"]]]

/-- A grammar ptree with a duplicated rule name. -/
def rulesDup : List JVal := [ruleDupA, ruleDupB]

/-- The code the compiler emits for `rulesDup`. -/
def codeDup : List Exp := [.SQ false ['a'], .SQ false ['b']]

/-- Rule ptree `_space_ = ' '`. -/
def spaceRule : JVal :=
  .arr [.str "rule", .arr [.arr [.str "id", .str "_space_"], .arr [.str "sq", .str "' '"]]]

/-- Rule ptree `s = 'a'`. -/
def sRule : JVal :=
  .arr [.str "rule", .arr [.arr [.str "id", .str "s"], .arr [.str "sq", .str "'a'"]]]

/-- The program compiled from `[spaceRule, sRule]`: `_space_` is rule 0,
so its `space` field is unset. -/
def cxSpaceFirst : Codex :=
  ⟨[spaceRule, sRule], [("_space_", 0), ("s", 1)],
   [.SQ false [' '], .SQ false ['a']], .ID 0 "_space_", none⟩

/-- The program compiled from `[sRule, spaceRule]`: `_space_` is rule 1,
so its `space` field points at that rule's instruction. -/
def cxSpaceSecond : Codex :=
  ⟨[sRule, spaceRule], [("s", 0), ("_space_", 1)],
   [.SQ false ['a'], .SQ false [' ']], .ID 0 "s", some (.SQ false [' '])⟩

/-- An environment with a custom `_space_` instruction installed, on the
input `"a  x"`. -/
def envCustomSpace : Env :=
  mkEnv [] (some (.CHS false (some 0) (some 0) [' '])) "a  x".data

/-- A one-rule program `w = 'a'` on input `"a"` (witness environment). -/
def envW0 : Env := mkEnv [.SQ false ['a']] none "a".data

/-! ## The ptree-stack extension invariant -/

/-- `u` extends `t` on the right: the entry portion of the ptree stack
survives an evaluation. -/
def TreeExt (t u : List JVal) : Prop := ∃ ext, u = t ++ ext

theorem TreeExt.rfl {t : List JVal} : TreeExt t t := ⟨[], by simp⟩

theorem TreeExt.app {t : List JVal} (ext : List JVal) : TreeExt t (t ++ ext) := ⟨ext, by simp⟩

theorem TreeExt.trans {t u v : List JVal} (h1 : TreeExt t u) (h2 : TreeExt u v) :
    TreeExt t v := by
  obtain ⟨a, rfl⟩ := h1
  obtain ⟨b, rfl⟩ := h2
  exact ⟨a ++ b, by simp⟩

theorem TreeExt.push {t u : List JVal} (h : TreeExt t u) (x : JVal) :
    TreeExt t (u ++ [x]) := h.trans (TreeExt.app [x])

theorem TreeExt.length_le {t u : List JVal} (h : TreeExt t u) : t.length ≤ u.length := by
  obtain ⟨a, rfl⟩ := h
  simp

theorem TreeExt.take_entry {t u : List JVal} (h : TreeExt t u) : u.take t.length = t := by
  obtain ⟨a, rfl⟩ := h
  simp

theorem TreeExt.take_of_le {t u : List JVal} {n : Nat} (h : TreeExt t u)
    (hn : n ≤ t.length) : u.take n = t.take n := by
  obtain ⟨a, rfl⟩ := h
  rw [List.take_append_eq_append_take, Nat.sub_eq_zero_of_le hn]
  simp

theorem TreeExt.eq_of_length_le {t u : List JVal} (h : TreeExt t u)
    (hl : u.length ≤ t.length) : u = t := by
  obtain ⟨a, rfl⟩ := h
  have : a = [] := by
    have := List.length_append t a ▸ hl
    exact List.eq_nil_of_length_eq_zero (by omega)
  simp [this]

theorem truncTo_input (s : Nat) (env : Env) : (truncTo s env).input = env.input := by
  unfold truncTo
  split <;> rfl

/-- Truncating to the length of a surviving entry tree restores exactly
that tree. -/
theorem truncTo_entry {t : List JVal} {env : Env} (hx : TreeExt t env.tree) :
    truncTo t.length env = { env with tree := t } := by
  unfold truncTo
  split
  · rw [hx.take_entry]
  · rename_i hlt
    rw [← hx.eq_of_length_le (Nat.le_of_not_lt hlt)]

theorem truncTo_take {s : Nat} {env : Env} (hs : s ≤ env.tree.length) :
    (truncTo s env).tree = env.tree.take s := by
  unfold truncTo
  split
  · rfl
  · rename_i hlt
    have h2 : env.tree.length = s := Nat.le_antisymm (Nat.not_lt.mp hlt) hs
    rw [← h2, List.take_length]

theorem truncTo_tree_length {s : Nat} {env : Env} (hs : s ≤ env.tree.length) :
    (truncTo s env).tree.length = s := by
  rw [truncTo_take hs, List.length_take]
  omega

theorem eval_zero (e : Exp) (env : Env) : eval 0 e env = none := rfl

theorem altLoop_zero (args : List Exp) (guards : Option (List GuardVal)) (i : Nat)
    (ch : Option Char) (start stack : Nat) (env : Env) :
    altLoop 0 args guards i ch start stack env = none := rfl

theorem seqInner_zero (args : List Exp) (istart : Nat) (env : Env) :
    seqInner 0 args istart env = none := rfl

theorem seqLoop_zero (mn mx : JSNum) (args : List Exp) (count : Nat) (env : Env) :
    seqLoop 0 mn mx args count env = none := rfl

theorem repLoop_zero (child : Exp) (mx : JSNum) (count pos : Nat) (env : Env) :
    repLoop 0 child mx count pos env = none := rfl

theorem dqLoop_zero (icase : Bool) (str : List Char) (pos : Nat) (env : Env) :
    dqLoop 0 icase str pos env = none := rfl

set_option maxHeartbeats 1000000

/-- The central state invariant, by induction on fuel over the six mutually
recursive machine functions: every terminating call preserves the input
and leaves the entry portion of the ptree stack intact (for `altLoop`,
the portion below the `ALT` entry mark). -/
theorem stateInv : ∀ f : Nat,
    (∀ e env r env', eval f e env = some (r, env') →
       env'.input = env.input ∧ TreeExt env.tree env'.tree) ∧
    (∀ args guards i ch start stack env r env',
       altLoop f args guards i ch start stack env = some (r, env') →
       env'.input = env.input ∧
       (stack ≤ env.tree.length → TreeExt (env.tree.take stack) env'.tree)) ∧
    (∀ args istart env r env', seqInner f args istart env = some (r, env') →
       env'.input = env.input ∧ TreeExt env.tree env'.tree) ∧
    (∀ mn mx args count env r env', seqLoop f mn mx args count env = some (r, env') →
       env'.input = env.input ∧ TreeExt env.tree env'.tree) ∧
    (∀ child mx count pos env c env', repLoop f child mx count pos env = some (c, env') →
       env'.input = env.input ∧ TreeExt env.tree env'.tree) ∧
    (∀ icase str pos env o env', dqLoop f icase str pos env = some (o, env') →
       env'.input = env.input ∧ TreeExt env.tree env'.tree) := by
  intro f
  induction f with
  | zero =>
    refine ⟨?_, ?_, ?_, ?_, ?_, ?_⟩ <;> intros <;>
      simp_all [eval, altLoop, seqInner, seqLoop, repLoop, dqLoop]
  | succ f ih =>
    obtain ⟨ihE, ihA, ihI, ihS, ihR, ihD⟩ := ih
    refine ⟨?_, ?_, ?_, ?_, ?_, ?_⟩
    · -- eval
      intro e env r env' h
      cases e with
      | ID idx name =>
        simp only [eval] at h
        split at h
        · simp at h
        · split at h
          · simp at h
          · rename_i expr hc
            split at h
            · simp at h
            · rename_i result env1 hev
              have hb := ihE _ _ _ _ hev
              split at h
              · simp only [Option.some.injEq, Prod.mk.injEq] at h
                obtain ⟨rfl, rfl⟩ := h
                exact ⟨hb.1, hb.2⟩
              · split at h
                · -- underscore: truncTo
                  simp only [Option.some.injEq, Prod.mk.injEq] at h
                  obtain ⟨rfl, rfl⟩ := h
                  refine ⟨?_, ?_⟩
                  · rw [truncTo_input]
                    exact hb.1
                  · rw [truncTo_entry
                        (show TreeExt env.tree ({ env1 with depth := env1.depth - 1 } : Env).tree
                         from hb.2)]
                    exact TreeExt.rfl
                · split at h
                  · -- leaf push
                    simp only [Option.some.injEq, Prod.mk.injEq] at h
                    obtain ⟨rfl, rfl⟩ := h
                    exact ⟨hb.1, hb.2.push _⟩
                  · split at h
                    · -- take ++ [node]
                      simp only [Option.some.injEq, Prod.mk.injEq] at h
                      obtain ⟨rfl, rfl⟩ := h
                      refine ⟨hb.1, ?_⟩
                      show TreeExt env.tree (env1.tree.take env.tree.length ++ _)
                      rw [hb.2.take_entry]
                      exact TreeExt.app _
                    · -- elide
                      simp only [Option.some.injEq, Prod.mk.injEq] at h
                      obtain ⟨rfl, rfl⟩ := h
                      exact ⟨hb.1, hb.2⟩
      | ALT children guards =>
        simp only [eval] at h
        have ha := ihA _ _ _ _ _ _ _ _ _ h
        refine ⟨ha.1, ?_⟩
        have h2 := ha.2 (Nat.le_refl _)
        rwa [List.take_length] at h2
      | SEQ mn mx args =>
        simp only [eval] at h
        exact ihS _ _ _ _ _ _ _ h
      | REP mn mx child =>
        simp only [eval] at h
        split at h
        · simp at h
        · rename_i count env1 hrep
          have hr := ihR _ _ _ _ _ _ _ hrep
          split at h
          · simp only [Option.some.injEq, Prod.mk.injEq] at h
            obtain ⟨rfl, rfl⟩ := h
            refine ⟨?_, ?_⟩
            · rw [truncTo_input]
              exact hr.1
            · rw [truncTo_entry (show TreeExt env.tree env1.tree from hr.2)]
              exact TreeExt.rfl
          · simp only [Option.some.injEq, Prod.mk.injEq] at h
            obtain ⟨rfl, rfl⟩ := h
            exact ⟨hr.1, hr.2⟩
      | PRE sign term =>
        simp only [eval] at h
        split at h
        · simp at h
        · rename_i result env1 hev
          have hb := ihE _ _ _ _ hev
          have hb1 : env1.input = env.input := hb.1
          have hb2 : TreeExt env.tree env1.tree := hb.2
          rw [truncTo_entry
              (show TreeExt env.tree ({ env1 with peak := env.peak, trace := env.trace } : Env).tree
               from hb2)] at h
          split at h
          · -- sign = "~"
            split at h
            · simp only [Option.some.injEq, Prod.mk.injEq] at h
              obtain ⟨rfl, rfl⟩ := h
              exact ⟨hb1, TreeExt.rfl⟩
            · split at h
              · simp only [Option.some.injEq, Prod.mk.injEq] at h
                obtain ⟨rfl, rfl⟩ := h
                exact ⟨hb1, TreeExt.rfl⟩
              · simp only [Option.some.injEq, Prod.mk.injEq] at h
                obtain ⟨rfl, rfl⟩ := h
                exact ⟨hb1, TreeExt.rfl⟩
          · split at h
            · simp only [Option.some.injEq, Prod.mk.injEq] at h
              obtain ⟨rfl, rfl⟩ := h
              exact ⟨hb1, TreeExt.rfl⟩
            · simp only [Option.some.injEq, Prod.mk.injEq] at h
              obtain ⟨rfl, rfl⟩ := h
              exact ⟨hb1, TreeExt.rfl⟩
      | SQ icase str =>
        simp only [eval] at h
        split at h
        · simp only [Option.some.injEq, Prod.mk.injEq] at h
          obtain ⟨rfl, rfl⟩ := h
          exact ⟨rfl, TreeExt.rfl⟩
        · split at h
          · simp only [Option.some.injEq, Prod.mk.injEq] at h
            obtain ⟨rfl, rfl⟩ := h
            exact ⟨rfl, TreeExt.rfl⟩
          · rename_i pos hsq
            split at h <;>
              (simp only [Option.some.injEq, Prod.mk.injEq] at h
               obtain ⟨rfl, rfl⟩ := h
               exact ⟨rfl, TreeExt.rfl⟩)
      | DQ icase str =>
        simp only [eval] at h
        split at h
        · simp only [Option.some.injEq, Prod.mk.injEq] at h
          obtain ⟨rfl, rfl⟩ := h
          exact ⟨rfl, TreeExt.rfl⟩
        · split at h
          · simp at h
          · rename_i env1 hdq
            have hd := ihD _ _ _ _ _ _ hdq
            simp only [Option.some.injEq, Prod.mk.injEq] at h
            obtain ⟨rfl, rfl⟩ := h
            exact ⟨hd.1, hd.2⟩
          · rename_i pos env1 hdq
            have hd := ihD _ _ _ _ _ _ hdq
            split at h <;>
              (simp only [Option.some.injEq, Prod.mk.injEq] at h
               obtain ⟨rfl, rfl⟩ := h
               exact ⟨hd.1, hd.2⟩)
      | CHS neg mn mx str =>
        simp only [eval] at h
        split at h
        · simp only [Option.some.injEq, Prod.mk.injEq] at h
          obtain ⟨rfl, rfl⟩ := h
          exact ⟨rfl, TreeExt.rfl⟩
        · split at h <;>
            (simp only [Option.some.injEq, Prod.mk.injEq] at h
             obtain ⟨rfl, rfl⟩ := h
             exact ⟨rfl, TreeExt.rfl⟩)
      | EXTN txt =>
        simp only [eval] at h
        split at h
        · split at h <;>
            (simp only [Option.some.injEq, Prod.mk.injEq] at h
             obtain ⟨rfl, rfl⟩ := h
             exact ⟨rfl, TreeExt.rfl⟩)
        · split at h
          · simp only [Option.some.injEq, Prod.mk.injEq] at h
            obtain ⟨rfl, rfl⟩ := h
            exact ⟨rfl, TreeExt.rfl⟩
          · simp at h
    · -- altLoop
      intro args guards i ch start stack env r env' h
      cases args with
      | nil =>
        simp only [altLoop, Option.some.injEq, Prod.mk.injEq] at h
        obtain ⟨rfl, rfl⟩ := h
        exact ⟨rfl, fun _ => ⟨env.tree.drop stack, (List.take_append_drop stack env.tree).symm⟩⟩
      | cons a rest =>
        simp only [altLoop] at h
        split at h
        · exact ihA _ _ _ _ _ _ _ _ _ h
        · split at h
          · simp at h
          · rename_i env1 hev
            simp only [Option.some.injEq, Prod.mk.injEq] at h
            obtain ⟨rfl, rfl⟩ := h
            have hb := ihE _ _ _ _ hev
            refine ⟨hb.1, fun _ => ?_⟩
            have h1 : TreeExt (env.tree.take stack) env.tree :=
              ⟨env.tree.drop stack, (List.take_append_drop stack env.tree).symm⟩
            exact h1.trans hb.2
          · rename_i env1 hev
            have hb := ihE _ _ _ _ hev
            have hb2 : TreeExt env.tree env1.tree := hb.2
            have hrec := ihA _ _ _ _ _ _ _ _ _ h
            refine ⟨?_, fun hs => ?_⟩
            · have h1 : ({ truncTo stack env1 with pos := start } : Env).input = env.input := by
                show (truncTo stack env1).input = env.input
                rw [truncTo_input]
                exact hb.1
              exact hrec.1.trans h1
            · have hs1 : stack ≤ env1.tree.length := le_trans hs hb2.length_le
              have hlen2 : stack ≤ ({ truncTo stack env1 with pos := start } : Env).tree.length := by
                show stack ≤ (truncTo stack env1).tree.length
                rw [truncTo_tree_length hs1]
              have h2 := hrec.2 hlen2
              have he : ({ truncTo stack env1 with pos := start } : Env).tree.take stack =
                  env.tree.take stack := by
                show (truncTo stack env1).tree.take stack = env.tree.take stack
                rw [truncTo_take hs1, List.take_take, Nat.min_self]
                exact hb2.take_of_le hs
              rw [he] at h2
              exact h2
    · -- seqInner
      intro args istart env r env' h
      cases args with
      | nil =>
        simp only [seqInner, Option.some.injEq, Prod.mk.injEq] at h
        obtain ⟨rfl, rfl⟩ := h
        exact ⟨rfl, TreeExt.rfl⟩
      | cons a rest =>
        simp only [seqInner] at h
        split at h
        · simp at h
        · rename_i env1 hev
          have hb := ihE _ _ _ _ hev
          split at h <;>
            (simp only [Option.some.injEq, Prod.mk.injEq] at h
             obtain ⟨rfl, rfl⟩ := h
             exact ⟨hb.1, hb.2⟩)
        · rename_i env1 hev
          have hb := ihE _ _ _ _ hev
          have hrec := ihI _ _ _ _ _ h
          exact ⟨hrec.1.trans hb.1, hb.2.trans hrec.2⟩
    · -- seqLoop
      intro mn mx args count env r env' h
      simp only [seqLoop] at h
      split at h
      · simp at h
      · rename_i env1 hin
        have hi := ihI _ _ _ _ _ hin
        simp only [Option.some.injEq, Prod.mk.injEq] at h
        obtain ⟨rfl, rfl⟩ := h
        exact hi
      · rename_i env1 hin
        have hi := ihI _ _ _ _ _ hin
        split at h
        · simp only [Option.some.injEq, Prod.mk.injEq] at h
          obtain ⟨rfl, rfl⟩ := h
          exact hi
        · split at h
          · simp only [Option.some.injEq, Prod.mk.injEq] at h
            obtain ⟨rfl, rfl⟩ := h
            exact hi
          · have hrec := ihS _ _ _ _ _ _ _ h
            exact ⟨hrec.1.trans hi.1, hi.2.trans hrec.2⟩
    · -- repLoop
      intro child mx count pos env c env' h
      simp only [repLoop] at h
      split at h
      · simp at h
      · rename_i env1 hev
        have hb := ihE _ _ _ _ hev
        simp only [Option.some.injEq, Prod.mk.injEq] at h
        obtain ⟨rfl, rfl⟩ := h
        exact hb
      · rename_i env1 hev
        have hb := ihE _ _ _ _ hev
        split at h
        · simp only [Option.some.injEq, Prod.mk.injEq] at h
          obtain ⟨rfl, rfl⟩ := h
          exact hb
        · split at h
          · simp only [Option.some.injEq, Prod.mk.injEq] at h
            obtain ⟨rfl, rfl⟩ := h
            exact hb
          · have hrec := ihR _ _ _ _ _ _ _ h
            exact ⟨hrec.1.trans hb.1, hb.2.trans hrec.2⟩
    · -- dqLoop
      intro icase str pos env o env' h
      cases str with
      | nil =>
        simp only [dqLoop, Option.some.injEq, Prod.mk.injEq] at h
        obtain ⟨rfl, rfl⟩ := h
        exact ⟨rfl, TreeExt.rfl⟩
      | cons c rest =>
        simp only [dqLoop] at h
        split at h
        · split at h
          · split at h
            · simp at h
            · rename_i b env1 hev
              have hb := ihE _ _ _ _ hev
              have hrec := ihD _ _ _ _ _ _ h
              refine ⟨?_, ?_⟩
              · exact hrec.1.trans hb.1
              · exact (hb.2 : TreeExt env.tree env1.tree).trans hrec.2
          · exact ihD _ _ _ _ _ _ h
        · split at h
          · exact ihD _ _ _ _ _ _ h
          · simp only [Option.some.injEq, Prod.mk.injEq] at h
            obtain ⟨rfl, rfl⟩ := h
            exact ⟨rfl, TreeExt.rfl⟩

/-! ## Claim theorems -/

/-- Specialization of `stateInv` to `eval`. -/
theorem eval_stateInv {f : Nat} {e : Exp} {env : Env} {r : Bool} {env' : Env}
    (h : eval f e env = some (r, env')) :
    env'.input = env.input ∧ TreeExt env.tree env'.tree :=
  (stateInv f).1 _ _ _ _ h

/-- **C1** (amended): a terminating `ID` invocation either succeeds and
pushes exactly one node onto the ptree stack (none when the rule name
starts with `_`), or fails — and on failure the entry tree survives as a
prefix, but the cursor and the stack are NOT restored (that is the
caller's job: `ALT`, `REP` and `PRE` restore them, `SEQ` does not). -/
theorem c1_id_push_discipline :
    ∀ (f idx : Nat) (name : String) (env : Env) (r : Bool) (env' : Env),
      eval (Nat.succ f) (Exp.ID idx name) env = some (r, env') →
      (r = true → (headUnderscore name = true → env'.tree = env.tree) ∧
        (headUnderscore name = false → ∃ node, env'.tree = env.tree ++ [node])) ∧
      (r = false → ∃ ext, env'.tree = env.tree ++ ext) := by
  intro f idx name env r env' h
  simp only [eval] at h
  split at h
  · simp at h
  · split at h
    · simp at h
    · rename_i expr hc
      split at h
      · simp at h
      · rename_i result env1 hev
        have hb := eval_stateInv hev
        have hb2 : TreeExt env.tree env1.tree := hb.2
        split at h
        · -- result = false
          simp only [Option.some.injEq, Prod.mk.injEq] at h
          obtain ⟨rfl, rfl⟩ := h
          refine ⟨fun hT => absurd hT (by simp), fun _ => ?_⟩
          obtain ⟨ext, hx⟩ := hb2
          exact ⟨ext, hx⟩
        · split at h
          · -- underscore
            rename_i hund
            simp only [Option.some.injEq, Prod.mk.injEq] at h
            obtain ⟨rfl, rfl⟩ := h
            refine ⟨fun _ => ⟨fun _ => ?_, fun hfalse => ?_⟩, fun hF => absurd hF (by simp)⟩
            · rw [truncTo_entry
                  (show TreeExt env.tree ({ env1 with depth := env1.depth - 1 } : Env).tree
                   from hb2)]
            · rw [hund] at hfalse
              exact absurd hfalse (by simp)
          · split at h
            · -- leaf push (no children)
              rename_i hund hlen
              simp only [Option.some.injEq, Prod.mk.injEq] at h
              obtain ⟨rfl, rfl⟩ := h
              have he : env1.tree = env.tree := hb2.eq_of_length_le (le_of_eq hlen)
              refine ⟨fun _ => ⟨fun hT => ?_, fun _ => ?_⟩, fun hF => absurd hF (by simp)⟩
              · simp [hT] at hund
              · exact ⟨JVal.arr [.str name, .str (sliceStr env1.input env.pos env1.pos)],
                  by rw [he]⟩
            · split at h
              · -- wrap in a branch
                rename_i hund hlen hbig
                simp only [Option.some.injEq, Prod.mk.injEq] at h
                obtain ⟨rfl, rfl⟩ := h
                refine ⟨fun _ => ⟨fun hT => ?_, fun _ => ?_⟩, fun hF => absurd hF (by simp)⟩
                · simp [hT] at hund
                · refine ⟨JVal.arr [.str name, .arr (env1.tree.drop env.tree.length)], ?_⟩
                  show env1.tree.take env.tree.length ++ _ = env.tree ++ _
                  rw [hb2.take_entry]
              · -- elide the single child
                rename_i hund hlen hsmall
                simp only [Option.some.injEq, Prod.mk.injEq] at h
                obtain ⟨rfl, rfl⟩ := h
                refine ⟨fun _ => ⟨fun hT => ?_, fun _ => ?_⟩, fun hF => absurd hF (by simp)⟩
                · simp [hT] at hund
                · obtain ⟨ext, hx⟩ := hb2
                  have hne : ¬(env1.tree.length = env.tree.length) := hlen
                  have hle : ¬(1 < env1.tree.length - env.tree.length) := by
                    intro hcon
                    exact hsmall (Or.inl hcon)
                  have hlext : ext.length = 1 := by
                    have h1 := congrArg List.length hx
                    rw [List.length_append] at h1
                    omega
                  obtain ⟨a, rfl⟩ := List.length_eq_one.mp hlext
                  exact ⟨a, by rw [hx]⟩


/-- **C6**: a terminating `PRE(sign, child)` evaluation runs the child
with trace suppressed, restores the ptree stack unconditionally (no
lookahead ever adds a child), restores the trace flag, and restores the
cursor and peak — except that a succeeding `~` consumes exactly one
codepoint (raising the peak accordingly); `&` succeeds iff the child
succeeded, `!` iff it failed, and `~` iff it failed with at least one
codepoint of input remaining. -/
theorem c6_pre_lookahead :
    ∀ (f : Nat) (sign : String) (term : Exp) (env : Env) (r : Bool) (env' : Env),
      eval (Nat.succ f) (Exp.PRE sign term) env = some (r, env') →
      ∃ cr cenv, eval f term { env with trace := false } = some (cr, cenv) ∧
        env'.tree = env.tree ∧
        env'.trace = env.trace ∧
        (sign = "&" → r = cr ∧ env'.pos = env.pos ∧ env'.peak = env.peak) ∧
        (sign = "!" → r = !cr ∧ env'.pos = env.pos ∧ env'.peak = env.peak) ∧
        (sign = "~" →
          (r = true ↔ (cr = false ∧ env.pos < env.input.length)) ∧
          (r = true → env'.pos = env.pos + 1 ∧
            env'.peak = if env.peak < env.pos + 1 then env.pos + 1 else env.peak) ∧
          (r = false → env'.pos = env.pos ∧ env'.peak = env.peak)) := by
  intro f sign term env r env' h
  simp only [eval] at h
  split at h
  · simp at h
  · rename_i result env1 hev
    have hb := eval_stateInv hev
    have hb1 : env1.input = env.input := hb.1
    have hb2 : TreeExt env.tree env1.tree := hb.2
    rw [truncTo_entry
        (show TreeExt env.tree ({ env1 with peak := env.peak, trace := env.trace } : Env).tree
         from hb2)] at h
    refine ⟨result, env1, hev, ?_⟩
    split at h
    · -- sign = "~"
      rename_i hsign
      subst hsign
      split at h
      · -- inner succeeded or nothing remains: fail
        rename_i hcond
        simp only [Option.some.injEq, Prod.mk.injEq] at h
        obtain ⟨rfl, rfl⟩ := h
        have hcond2 : result = true ∨ env.input.length ≤ env.pos := by
          rcases hcond with hc | hc
          · exact Or.inl hc
          · right
            calc env.input.length = env1.input.length := by rw [hb1]
            _ ≤ env.pos := hc
        refine ⟨rfl, rfl, ?_, ?_, ?_⟩
        · intro he
          exact absurd he (by decide)
        · intro he
          exact absurd he (by decide)
        · intro _
          refine ⟨?_, ?_, fun _ => ⟨rfl, rfl⟩⟩
          · constructor
            · intro hfalse
              exact absurd hfalse (by decide)
            · intro ⟨hcr, hrem⟩
              rcases hcond2 with hc | hc
              · rw [hcr] at hc
                exact absurd hc (by decide)
              · omega
          · intro hfalse
            exact absurd hfalse (by decide)
      · -- inner failed with input remaining: consume one codepoint
        rename_i hcond
        have hres : ¬(result = true) ∧ env.pos < env.input.length := by
          constructor
          · intro hc
            exact hcond (Or.inl hc)
          · have : ¬(env1.input.length ≤ env.pos) := fun hc => hcond (Or.inr hc)
            rw [hb1] at this
            omega
        split at h
        · -- peak < pos + 1
          rename_i hpk
          simp only [Option.some.injEq, Prod.mk.injEq] at h
          obtain ⟨rfl, rfl⟩ := h
          have hpk2 : env.peak < env.pos + 1 := hpk
          refine ⟨rfl, rfl, ?_, ?_, ?_⟩
          · intro he
            exact absurd he (by decide)
          · intro he
            exact absurd he (by decide)
          · intro _
            refine ⟨?_, ?_, ?_⟩
            · simp only [true_iff]
              exact ⟨Bool.not_eq_true result ▸ hres.1, hres.2⟩
            · intro _
              refine ⟨rfl, ?_⟩
              show env.pos + 1 = if env.peak < env.pos + 1 then env.pos + 1 else env.peak
              rw [if_pos hpk2]
            · intro hfalse
              exact absurd hfalse (by decide)
        · -- peak already past
          rename_i hpk
          simp only [Option.some.injEq, Prod.mk.injEq] at h
          obtain ⟨rfl, rfl⟩ := h
          have hpk2 : ¬(env.peak < env.pos + 1) := hpk
          refine ⟨rfl, rfl, ?_, ?_, ?_⟩
          · intro he
            exact absurd he (by decide)
          · intro he
            exact absurd he (by decide)
          · intro _
            refine ⟨?_, ?_, ?_⟩
            · simp only [true_iff]
              exact ⟨Bool.not_eq_true result ▸ hres.1, hres.2⟩
            · intro _
              refine ⟨rfl, ?_⟩
              show env.peak = if env.peak < env.pos + 1 then env.pos + 1 else env.peak
              rw [if_neg hpk2]
            · intro hfalse
              exact absurd hfalse (by decide)
    · split at h
      · -- sign = "!"
        rename_i hsign hsign2
        subst hsign2
        simp only [Option.some.injEq, Prod.mk.injEq] at h
        obtain ⟨rfl, rfl⟩ := h
        refine ⟨rfl, rfl, ?_, ?_, ?_⟩
        · intro he
          exact absurd he (by decide)
        · intro _
          exact ⟨rfl, rfl, rfl⟩
        · intro he
          exact absurd he (by decide)
      · -- any other sign (only "&" arises): return the child result
        rename_i hsign hsign2
        simp only [Option.some.injEq, Prod.mk.injEq] at h
        obtain ⟨rfl, rfl⟩ := h
        refine ⟨rfl, rfl, ?_, ?_, ?_⟩
        · intro _
          exact ⟨rfl, rfl, rfl⟩
        · intro he
          exact absurd he hsign2
        · intro he
          exact absurd he hsign


/-- **C9**: a `REP` or `SEQ` with unbounded `max` whose body succeeds
consuming zero input stops after exactly one iteration (the no-progress
guard) and the repetition succeeds for `min ≤ 1` (`x*` and `x+`). The
conclusion holds with just one iteration's worth of fuel beyond the
body's, and the final state is exactly the single iteration's state. -/
theorem c9_zero_length_progress_guard :
    (∀ (f : Nat) (child : Exp) (min : Nat) (env env1 : Env),
       min ≤ 1 →
       eval f child env = some (true, env1) →
       env1.pos = env.pos →
       repLoop (Nat.succ f) child (some 0) 0 env.pos env = some (1, env1) ∧
       eval (Nat.succ (Nat.succ f)) (Exp.REP (some min) (some 0) child) env =
         some (true, env1)) ∧
    (∀ (f : Nat) (args : List Exp) (min : Nat) (env env1 : Env),
       min ≤ 1 →
       seqInner f args env.pos env = some (true, env1) →
       env1.pos = env.pos →
       eval (Nat.succ (Nat.succ f)) (Exp.SEQ (some min) (some 0) args) env =
         some (true, env1)) := by
  constructor
  · intro f child min env env1 hmin hev hpos
    have hloop : repLoop (Nat.succ f) child (some 0) 0 env.pos env = some (1, env1) := by
      simp [repLoop, hev, hpos]
    have hlt : jsLtN 1 (some min) = false := by
      simp only [jsLtN]
      simp only [decide_eq_false_iff_not]
      omega
    refine ⟨hloop, ?_⟩
    simp [eval, hloop, hlt]
  · intro f args min env env1 hmin hin hpos
    have hge : jsGeN 1 (some min) = true := by
      simp only [jsGeN]
      simp only [decide_eq_true_eq]
      omega
    have heq : jsEqN 1 (some 0) = false := by
      simp [jsEqN]
    simp [eval, seqLoop, hin, heq, hpos, hge]

/-- With no custom `_space_` rule the `DQ` loop only tracks its cursor
locally, so any failing run leaves the environment untouched. -/
theorem dqLoop_space_none :
    ∀ (f : Nat) (icase : Bool) (str : List Char) (pos : Nat) (env : Env)
      (o : Option Nat) (env' : Env),
      env.space = none →
      dqLoop f icase str pos env = some (o, env') → env' = env := by
  intro f
  induction f with
  | zero =>
    intro icase str pos env o env' hsp h
    rw [dqLoop_zero] at h
    exact absurd h (by simp)
  | succ f ih =>
    intro icase str pos env o env' hsp h
    cases str with
    | nil =>
      simp only [dqLoop, Option.some.injEq, Prod.mk.injEq] at h
      exact h.2.symm
    | cons c rest =>
      simp only [dqLoop] at h
      split at h
      · simp only [hsp] at h
        exact ih _ _ _ _ _ _ hsp h
      · split at h
        · exact ih _ _ _ _ _ _ hsp h
        · simp only [Option.some.injEq, Prod.mk.injEq] at h
          exact h.2.symm

/-- **C7** (amended): when a `DQ` literal fails at a non-space character,
the cursor is NOT restored by `DQ` itself — but with the default
whitespace skip (no `_space_` rule) the environment, cursor included, is
exactly as it was at entry, because the skip is tracked only in a local
variable; only a custom `_space_` rule leaves the cursor advanced past
the whitespace skipped for the preceding space codepoints (concretely:
`"a b"` against `"a  x"` with a `_space_` instruction fails with the
cursor at 3, past the two skipped blanks). -/
theorem c7_dq_failure_cursor :
    (∀ (f : Nat) (icase : Bool) (str : List Char) (env env' : Env),
       env.space = none →
       eval f (Exp.DQ icase str) env = some (false, env') →
       env' = env) ∧
    (eval 9 (Exp.DQ false "a b".data) envCustomSpace).map (fun r => (r.1, r.2.pos)) =
      some (false, 3) := by
  constructor
  · intro f icase str env env' hsp h
    cases f with
    | zero =>
      rw [eval_zero] at h
      exact absurd h (by simp)
    | succ f =>
      simp only [eval] at h
      split at h
      · simp at h
      · split at h
        · simp at h
        · rename_i env1 hdq
          simp only [Option.some.injEq, Prod.mk.injEq] at h
          rw [← h.2]
          exact dqLoop_space_none _ _ _ _ _ _ _ hsp hdq
        · simp at h
  · rfl

/-- **C10**: the compiler sets the `space` field from `names["_space_"]`
with a truthiness test, so a `_space_` rule at index 0 leaves it unset
while any other index installs that rule's instruction; a `DQ` space
codepoint runs the installed instruction (syncing the cursor around the
call) and otherwise falls back to the default skip over the ASCII set
space, LF, CR, tab. -/
theorem c10_space_rule_index_zero :
    (∀ (fuel : Nat) (rules : List JVal) (cx : Codex) (i : Nat),
       compiler fuel rules = .ok cx →
       lookupName cx.names "_space_" = some i →
       (i = 0 → cx.space = none) ∧ (0 < i → cx.space = cx.code.get? i)) ∧
    (∀ (f : Nat) (icase : Bool) (rest : List Char) (pos : Nat) (env : Env),
       env.space = none →
       dqLoop (Nat.succ f) icase (' ' :: rest) pos env =
         dqLoop f icase rest (skipDefault env.input pos) env) ∧
    (∀ (f : Nat) (icase : Bool) (rest : List Char) (pos : Nat) (env : Env) (sp : Exp)
       (b : Bool) (env1 : Env),
       env.space = some sp →
       eval f sp { env with pos := pos } = some (b, env1) →
       dqLoop (Nat.succ f) icase (' ' :: rest) pos env = dqLoop f icase rest env1.pos env1) ∧
    (∀ (c : Char) (cs : List Char) (pos : Nat),
       skipDefaultAux (c :: cs) pos =
         if c = ' ' ∨ c = '\n' ∨ c = '\r' ∨ c = '\t' then skipDefaultAux cs (pos + 1)
         else pos) := by
  refine ⟨?_, ?_, ?_, ?_⟩
  · intro fuel rules cx i hcc hlk
    simp only [compiler] at hcc
    split at hcc
    · exact absurd hcc (by simp)
    · rename_i names hnames
      split at hcc
      · exact absurd hcc (by simp)
      · rename_i code hcode
        split at hcc
        · exact absurd hcc (by simp)
        · rename_i code2 hcode2
          simp only [Except.ok.injEq] at hcc
          subst hcc
          simp only at hlk
          constructor
          · intro hi
            subst hi
            show spaceOf names code2 = none
            unfold spaceOf
            rw [hlk]
          · intro hi
            cases i with
            | zero => omega
            | succ n =>
              show spaceOf names code2 = code2.get? (Nat.succ n)
              unfold spaceOf
              rw [hlk]
  · intro f icase rest pos env hsp
    simp [dqLoop, hsp]
  · intro f icase rest pos env sp b env1 hsp hev
    simp only [dqLoop, hsp]
    rw [← hsp, hev]
    simp
  · intro c cs pos
    simp [skipDefaultAux]

/-- **C8** (amended): the compiler performs no duplicate-name check — the
`names` object is built by successive assignment, so the last rule with a
given name wins the lookup; a grammar ptree with a duplicated rule name
compiles without any error, references to the name resolve to the last
duplicate, and the first rule is still the start rule. -/
theorem c8_duplicates_silently_accepted :
    (∀ (l : List (String × Nat)) (k : String) (v : Nat),
       lookupName (l ++ [(k, v)]) k = some v) ∧
    compiler 99 rulesDup = .ok ⟨rulesDup, [("r", 0), ("r", 1)], codeDup, .ID 0 "r", none⟩ ∧
    lookupName [("r", 0), ("r", 1)] "r" = some 1 := by
  refine ⟨?_, rfl, rfl⟩
  intro l k v
  induction l with
  | nil => simp [lookupName]
  | cons a rest ih =>
    obtain ⟨ka, va⟩ := a
    show lookupName ((ka, va) :: (rest ++ [(k, v)])) k = some v
    simp only [lookupName]
    rw [ih]


/-- **C1** (counterexample): for the grammar `s = a 'x'` / `a = 'a'` on
input `"ay"`, the `ID` invocation of `s` fails but leaves the cursor at 1
(not the entry 0) and the leaf `["a","a"]` on the ptree stack (not the
entry `[]`): `SEQ` does not restore on failure, so a failing `ID` does
not either. -/
theorem c1_counterexample :
    (eval 9 (Exp.ID 0 "s") (mkEnv codeC1 none "ay".data)).map
      (fun r => (r.1, r.2.pos, r.2.tree)) =
      some (false, 1, [JVal.arr [.str "a", .str "a"]]) ∧
    (mkEnv codeC1 none "ay".data).pos = 0 ∧
    (mkEnv codeC1 none "ay".data).tree = [] := ⟨rfl, rfl, rfl⟩

/-- **C1** (witness): a concrete successful `ID` invocation pushing
exactly one node, via `c1_id_push_discipline`. -/
theorem c1_id_push_discipline_witness :
    ∃ env', eval 5 (Exp.ID 0 "w") (mkEnv [.SQ false ['a']] none "a".data) = some (true, env') ∧
      ∃ node, env'.tree = (mkEnv [.SQ false ['a']] none "a".data).tree ++ [node] := by
  obtain ⟨env', h⟩ :
      ∃ env', eval 5 (Exp.ID 0 "w") (mkEnv [.SQ false ['a']] none "a".data) =
        some (true, env') := ⟨_, rfl⟩
  exact ⟨env', h, ((c1_id_push_discipline 4 0 "w" _ true env' h).1 rfl).2 rfl⟩

/-- **C2**: compiling `s = 'a'i / 'b'` attaches the guards `['A', 'b']`
(the case-insensitive literal is upper-cased at compile time but the
guard is compared against the raw input codepoint), so on input `"a"`
the guarded `ALT` skips BOTH alternatives and the parse fails — while the
same program with the guards stripped succeeds, matching `'a'i` and
consuming one codepoint. A guard thus skips an alternative whose
evaluation would succeed. -/
theorem c2_guard_skips_succeeding_alternative :
    compiler 99 rulesC2 = .ok ⟨rulesC2, [("s", 0)], codeC2, .ID 0 "s", none⟩ ∧
    (eval 9 (Exp.ID 0 "s") (mkEnv codeC2 none "a".data)).map Prod.fst = some false ∧
    (eval 9 (Exp.ID 0 "s") (mkEnv (codeC2.map (stripGuards 9)) none "a".data)).map
      (fun r => (r.1, r.2.pos)) = some (true, 1) := ⟨rfl, rfl, rfl⟩

/-- **C3**: `min_max` decodes `+` to (1,0), `?` to (0,1), `*` to (0,0),
`*N` to (N,N) and `*N..M` to (N,M) as specified — but the two-child
`range` case (`*N..`) feeds the whole child array to `parseInt`, which
stringifies as `"num,2,dots,.."` and parses as `NaN` (`none`), not the
specified `(N, 0)`. -/
theorem c3_min_max_decode :
    min_max "sfx" (.str "+") = .ok (some 1, some 0) ∧
    min_max "sfx" (.str "?") = .ok (some 0, some 1) ∧
    min_max "sfx" (.str "*") = .ok (some 0, some 0) ∧
    min_max "num" (.str "3") = .ok (some 3, some 3) ∧
    min_max "range" (.arr [.arr [.str "num", .str "2"], .arr [.str "dots", .str ".."],
      .arr [.str "num", .str "5"]]) = .ok (some 2, some 5) ∧
    jsToString sfxRangeOpen = "num,2,dots,.." ∧
    min_max "range" sfxRangeOpen = .ok (none, some 0) :=
  ⟨rfl, rfl, rfl, rfl, rfl, rfl, rfl⟩

/-- **C4**: on the children `1 + 2` with a right-associative operator
(name ending `__0_`, binding power 2), `pratt` takes the even-power
branch and evaluates `rpb - 1` — `rpb` is an undefined name (a typo for
`rbp`), so the rewrite raises a `ReferenceError` instead of building the
node; the left-associative path (`_d__` names) works and labels nodes
with the operator's text content. -/
theorem c4_infix_rpb_reference_error :
    infixFn 9 treeC4 0 = .error "ReferenceError: rpb is not defined" ∧
    infixFn 19 treeC4b 0 = .ok [JVal.arr [.str "+",
      .arr [.arr [.str "val", .str "1"],
            .arr [.str "*", .arr [.arr [.str "val", .str "2"],
                                  .arr [.str "val", .str "3"]]]]]] := ⟨rfl, rfl⟩

/-- **C5**: the capital rule `S = 'a'` succeeds on `"a"` with no child
nodes, and `ID` pushes the LEAF `["S","a"]` — the no-children case runs
before the capital-letter test, so a capital rule with empty children
never becomes the Branch `["S",[]]` the spec (and the repository README's
`["Obj",[]]` example) describe. -/
theorem c5_capital_empty_children_leaf :
    (eval 9 (Exp.ID 0 "S") (mkEnv [.SQ false ['a']] none "a".data)).map
      (fun r => (r.1, r.2.tree)) = some (true, [JVal.arr [.str "S", .str "a"]]) ∧
    headLEZ "S" = true := ⟨rfl, rfl⟩

/-- **C6** (witness): `!'z'` on input `"a"` succeeds with the ptree stack
restored, via `c6_pre_lookahead`. -/
theorem c6_pre_lookahead_witness :
    ∃ env', eval 2 (Exp.PRE "!" (Exp.SQ false ['z'])) (mkEnv [] none "a".data) =
      some (true, env') ∧ env'.tree = (mkEnv [] none "a".data).tree := by
  obtain ⟨env', h⟩ :
      ∃ env', eval 2 (Exp.PRE "!" (Exp.SQ false ['z'])) (mkEnv [] none "a".data) =
        some (true, env') := ⟨_, rfl⟩
  obtain ⟨cr, cenv, _, htree, _⟩ := c6_pre_lookahead 1 "!" _ _ true env' h
  exact ⟨env', h, htree⟩

/-- **C7** (counterexample): `DQ "a b"` against `"a  x"` with the default
whitespace handling fails at `'b'` after skipping the two blanks (the
default skip from position 1 reaches 3), yet the returned cursor is the
entry position 0 — not "advanced past that whitespace" as the claim
states for every failing `DQ`. -/
theorem c7_counterexample :
    (eval 9 (Exp.DQ false "a b".data) (mkEnv [] none "a  x".data)).map
      (fun r => (r.1, r.2.pos)) = some (false, 0) ∧
    (mkEnv [] none "a  x".data).pos = 0 ∧
    skipDefault "a  x".data 1 = 3 := ⟨rfl, rfl, rfl⟩

/-- **C7** (witness): a failing `DQ` with no `_space_` rule leaves the
environment untouched, via `c7_dq_failure_cursor`. -/
theorem c7_dq_failure_cursor_witness :
    (mkEnv [] none "x".data).space = none ∧
    eval 5 (Exp.DQ false ['b']) (mkEnv [] none "x".data) =
      some (false, mkEnv [] none "x".data) ∧
    mkEnv [] none "x".data = mkEnv [] none "x".data :=
  ⟨rfl, rfl, c7_dq_failure_cursor.1 5 false ['b'] _ _ rfl rfl⟩

/-- **C8** (counterexample): the duplicate grammar `r = 'a'` / `r = 'b'`
compiles without any raised error — into a program whose `names` holds
both assignments. -/
theorem c8_counterexample :
    compiler 99 rulesDup =
      .ok ⟨rulesDup, [("r", 0), ("r", 1)], codeDup, .ID 0 "r", none⟩ := rfl

/-- **C9** (witness): `x+` for the zero-length-matching `x = ''` succeeds
after one iteration, via `c9_zero_length_progress_guard`. -/
theorem c9_zero_length_progress_guard_witness :
    (1 : Nat) ≤ 1 ∧
    eval 1 (Exp.SQ false []) (mkEnv [] none "zz".data) =
      some (true, mkEnv [] none "zz".data) ∧
    eval 3 (Exp.REP (some 1) (some 0) (Exp.SQ false [])) (mkEnv [] none "zz".data) =
      some (true, mkEnv [] none "zz".data) :=
  ⟨by decide, rfl,
   (c9_zero_length_progress_guard.1 1 (Exp.SQ false []) 1 _ _ (by decide) rfl rfl).2⟩

/-- **C10** (witness): the same `_space_ = ' '` rule installed as rule 0
leaves `space` unset, and as rule 1 installs its instruction, via
`c10_space_rule_index_zero`. -/
theorem c10_space_rule_index_zero_witness :
    compiler 99 [spaceRule, sRule] = .ok cxSpaceFirst ∧
    lookupName cxSpaceFirst.names "_space_" = some 0 ∧
    cxSpaceFirst.space = none ∧
    compiler 99 [sRule, spaceRule] = .ok cxSpaceSecond ∧
    lookupName cxSpaceSecond.names "_space_" = some 1 ∧
    cxSpaceSecond.space = cxSpaceSecond.code.get? 1 :=
  ⟨rfl, rfl, (c10_space_rule_index_zero.1 99 [spaceRule, sRule] cxSpaceFirst 0 rfl rfl).1 rfl,
   rfl, rfl,
   (c10_space_rule_index_zero.1 99 [sRule, spaceRule] cxSpaceSecond 1 rfl rfl).2 (by decide)⟩

end PPEG
